import Mathlib

/-!
Shallow embedding of the network summarization engine of
`src/ospf_generator.py` (class `NetworkSummarizer`), together with the
pieces of Python's `ipaddress` standard library that the engine calls
(`ip_network` parsing with `strict=False`, `collapse_addresses`,
`subnet_of`, `supernet`).

Modelling notes, written once here and referenced below:
* An IPv4 network is a pair (network address, prefix length); addresses are
  natural numbers below 2^32.  Parsing masks host bits (`strict=False`).
* `ip_network` string parsing is modelled for the dotted-quad forms
  "A.B.C.D" and "A.B.C.D/L" with a decimal prefix length, exactly as
  CPython's `_parse_octet` / `_prefix_from_prefix_string` validate them
  (digits only, at most 3 characters, no leading zeros in octets, octet
  value at most 255, prefix value at most 32).  The rarely used
  netmask/hostmask suffix forms ("A.B.C.D/M.M.M.M") and IPv6 literals are
  not modelled; every theorem below that quantifies over input strings
  treats the parser as the partial function it is, so its exact domain is
  irrelevant to those proofs, and every concrete input used below is a
  plain dotted-quad CIDR string.
* Python's `list.sort` / `sorted` are stable sorts; a stable sort with
  respect to a total preorder has a uniquely determined output, so they
  are modelled by a stable insertion sort.
* `float` efficiency arithmetic (`used / total` compared with `0.05` and
  with the best efficiency so far) is modelled by exact cross-multiplied
  natural-number comparisons: the quantities compared are dyadic
  rationals with numerators far below 2^53 for any realistic input, where
  IEEE double division is exact, and no dyadic rational lies between 1/20
  and the double literal `0.05`, so the comparisons agree.
-/

/-- An IPv4 network: a (canonicalized) network address and a prefix
length, as in Python's `IPv4Network`. -/
structure Net where
  addr : Nat
  len : Nat
deriving DecidableEq, Repr

/-- `2^(32-len)`: `IPv4Network.num_addresses`. -/
def Net.num_addresses (n : Net) : Nat := 2 ^ (32 - n.len)

/-- The last address of the block: `IPv4Network.broadcast_address`. -/
def Net.broadcast (n : Net) : Nat := n.addr + 2 ^ (32 - n.len) - 1

/-- Mask an address to a prefix length: clear the low `32-l` bits. -/
def maskTo (a l : Nat) : Nat := a / 2 ^ (32 - l) * 2 ^ (32 - l)

/-- `IPv4Network._is_subnet_of(a, b)`: `b` covers the whole range of `a`. -/
def Net.subnet_of (a b : Net) : Bool :=
  decide (b.addr ≤ a.addr) && decide (a.broadcast ≤ b.broadcast)

/-- `IPv4Network.supernet()` with `prefixlen_diff=1`; a /0 network is its
own supernet. -/
def Net.supernet (n : Net) : Net :=
  if n.len = 0 then n else { addr := maskTo n.addr (n.len - 1), len := n.len - 1 }

/-- The well-formedness every parsed network enjoys: prefix length in
range, address in range, host bits zero. -/
def Net.Valid (n : Net) : Prop :=
  n.len ≤ 32 ∧ n.addr < 2 ^ 32 ∧ 2 ^ (32 - n.len) ∣ n.addr

instance (n : Net) : Decidable n.Valid := by
  unfold Net.Valid; infer_instance

/-- Comparison key used by `network_objects.sort` and by sorting inside
`collapse_addresses`: (network address, prefix length), ascending. -/
def netLe (x y : Net) : Bool :=
  decide (x.addr < y.addr) || (decide (x.addr = y.addr) && decide (x.len ≤ y.len))

/-- Comparison key used by `sorted(group_networks, key=...network_address)`. -/
def addrLe (x y : Net) : Bool := decide (x.addr ≤ y.addr)

/-- Stable insertion of one element (kept before later equal keys). -/
def insertLe (le : Net → Net → Bool) (x : Net) : List Net → List Net
  | [] => [x]
  | y :: ys => if le x y then x :: y :: ys else y :: insertLe le x ys

/-- Stable insertion sort. Python's sorts are stable, and any stable sort
with respect to a total preorder produces the same output, so this is a
faithful model of `list.sort` / `sorted`. -/
def insertionSortBy (le : Net → Net → Bool) : List Net → List Net
  | [] => []
  | x :: xs => insertLe le x (insertionSortBy le xs)

/-! ## Parsing (`ipaddress.ip_network(net, strict=False)`) -/

/-- Split a character list at every occurrence of `c` (like `str.split`). -/
def splitOnChar (c : Char) : List Char → List (List Char)
  | [] => [[]]
  | x :: xs =>
    if x = c then [] :: splitOnChar c xs
    else
      match splitOnChar c xs with
      | r :: rs => (x :: r) :: rs
      | [] => [[x]]

/-- Decimal digit test. -/
def isDigitChar (c : Char) : Bool := decide ('0' ≤ c) && decide (c ≤ '9')

/-- Value of a decimal digit character. -/
def digitVal (c : Char) : Nat := c.toNat - 48

/-- Value of a string of decimal digits. -/
def digitsToNat (cs : List Char) : Nat := cs.foldl (fun a c => 10 * a + digitVal c) 0

/-- CPython `IPv4Network._parse_octet`: nonempty, decimal digits only, at
most 3 characters, no leading zero (except the single octet "0"), value
at most 255. -/
def parseOctet (cs : List Char) : Option Nat :=
  if cs.isEmpty then none
  else if !cs.all isDigitChar then none
  else if 3 < cs.length then none
  else if 1 < cs.length && cs.take 1 = ['0'] then none
  else if digitsToNat cs ≤ 255 then some (digitsToNat cs) else none

/-- CPython `_prefix_from_prefix_string`: nonempty, decimal digits only,
value at most 32 (leading zeros are accepted here). -/
def parsePrefixLen (cs : List Char) : Option Nat :=
  if cs.isEmpty then none
  else if !cs.all isDigitChar then none
  else if digitsToNat cs ≤ 32 then some (digitsToNat cs) else none

/-- CPython `_ip_int_from_string`: exactly four octets. -/
def parseIPv4Addr (cs : List Char) : Option Nat :=
  match splitOnChar '.' cs with
  | [p0, p1, p2, p3] =>
    match parseOctet p0, parseOctet p1, parseOctet p2, parseOctet p3 with
    | some a, some b, some c, some d => some (((a * 256 + b) * 256 + c) * 256 + d)
    | _, _, _, _ => none
  | _ => none

/-- `ipaddress.ip_network(s, strict=False)` for IPv4 dotted-quad text:
at most one "/", optional decimal prefix length (default 32), host bits
masked away. -/
def parseNet (s : String) : Option Net :=
  match splitOnChar '/' s.toList with
  | [addrPart] =>
    (parseIPv4Addr addrPart).map (fun a => { addr := maskTo a 32, len := 32 })
  | [addrPart, lenPart] =>
    match parseIPv4Addr addrPart, parsePrefixLen lenPart with
    | some a, some l => some { addr := maskTo a l, len := l }
    | _, _ => none
  | _ => none

/-! ## Rendering (`str(IPv4Network)`) -/

/-- `str(IPv4Network)`: "A.B.C.D/L" with decimal octets, always with the
prefix length. -/
def netToString (n : Net) : String :=
  let a := n.addr / 16777216 % 256
  let b := n.addr / 65536 % 256
  let c := n.addr / 256 % 256
  let d := n.addr % 256
  let l := n.len
  s!"{a}.{b}.{c}.{d}/{l}"

/-! ## `ipaddress.collapse_addresses`

CPython's `_collapse_addresses_internal`: a worklist pass that repeatedly
pops a network, keys it in a dictionary by its supernet, and whenever the
two halves of a supernet are both seen replaces them by the supernet;
then the surviving values are sorted and networks subsumed by an earlier
(hence looser) survivor are dropped.  The worklist pops from the end of
the list, modelled here with the list head as the top of the stack and
the initial worklist reversed.  The dictionary is modelled as an
insertion-ordered association list (its order is irrelevant because the
values are sorted afterwards).  The loop is given explicit fuel; the fuel
supplied by `collapse_addresses` is proven sufficient below. -/

/-- Association-list lookup for the supernet dictionary. -/
def lookupA : List (Net × Net) → Net → Option Net
  | [], _ => none
  | (k, v) :: rest, q => if k = q then some v else lookupA rest q

/-- Association-list key removal (first occurrence, as in a dict). -/
def eraseKeyA : List (Net × Net) → Net → List (Net × Net)
  | [], _ => []
  | (k, v) :: rest, q => if k = q then rest else (k, v) :: eraseKeyA rest q

/-- The worklist pass ("first merge") of `_collapse_addresses_internal`. -/
def collapseLoop : Nat → List Net → List (Net × Net) → List (Net × Net)
  | _, [], subnets => subnets
  | 0, _ :: _, subnets => subnets
  | fuel + 1, net :: rest, subnets =>
    let sup := net.supernet
    match lookupA subnets sup with
    | none => collapseLoop fuel rest (subnets ++ [(sup, net)])
    | some existing =>
      if existing = net then collapseLoop fuel rest subnets
      else collapseLoop fuel (sup :: rest) (eraseKeyA subnets sup)

/-- Termination measure of a `collapseLoop` state; each iteration
strictly decreases it (proven below). -/
def loopMeasure (toMerge : List Net) (subnets : List (Net × Net)) : Nat :=
  (toMerge.map (fun n => n.len + 1)).sum + (subnets.map (fun p => p.2.len)).sum

/-- Fuel sufficient for the whole worklist pass. -/
def collapseFuel (l : List Net) : Nat := (l.map (fun n => n.len + 1)).sum + 1

/-- The final subsumption filter ("second pass") of
`_collapse_addresses_internal`: drop a network whose broadcast address
does not exceed that of the last network kept. -/
def dedupeSubsumed : Option Net → List Net → List Net
  | _, [] => []
  | none, n :: rest => n :: dedupeSubsumed (some n) rest
  | some l, n :: rest =>
    if decide (n.broadcast ≤ l.broadcast) then dedupeSubsumed (some l) rest
    else n :: dedupeSubsumed (some n) rest

/-- `ipaddress.collapse_addresses` on IPv4 networks. -/
def collapse_addresses (nets : List Net) : List Net :=
  let subnets := collapseLoop (collapseFuel nets) nets.reverse []
  dedupeSubsumed none (insertionSortBy netLe (subnets.map (fun p => p.2)))

/-! ## The summarizer (`class NetworkSummarizer`) -/

/-- High byte of the network address (`network_address.packed[0]`). -/
def addrByte0 (n : Net) : Nat := n.addr / 16777216 % 256

/-- Second byte of the network address (`network_address.packed[1]`). -/
def addrByte1 (n : Net) : Nat := n.addr / 65536 % 256

/-- The classification key of `_group_by_major_network_class`. -/
def classKey (n : Net) : String :=
  let b0 := addrByte0 n
  let b1 := addrByte1 n
  if b0 = 10 then "10"
  else if b0 = 172 && 16 ≤ b1 && b1 ≤ 31 then s!"172.{b1}"
  else if b0 = 192 && b1 = 168 then "192.168"
  else s!"{b0}.{b1}"

/-- Append a network to its keyed group (Python dict: first-seen key
order, members in arrival order). -/
def addToGroups (gs : List (String × List Net)) (k : String) (n : Net) :
    List (String × List Net) :=
  match gs with
  | [] => [(k, [n])]
  | (k', l) :: rest =>
    if k' = k then (k', l ++ [n]) :: rest else (k', l) :: addToGroups rest k n

/-- The keyed groups, in first-seen-key order. -/
def groupsOf (nets : List Net) : List (String × List Net) :=
  nets.foldl (fun gs n => addToGroups gs (classKey n) n) []

/-- `_group_by_major_network_class`: only groups with more than one
member are returned. -/
def _group_by_major_network_class (nets : List Net) : List (List Net) :=
  (groupsOf nets).filterMap (fun p => if 1 < p.2.length then some p.2 else none)

/-- `min(net.prefixlen for net in l)` for nonempty `l` (0 on `[]`, which
no call site reaches). -/
def minLen : List Net → Nat
  | [] => 0
  | n :: rest => rest.foldl (fun m x => Nat.min m x.len) n.len

/-- `min(net.network_address for net in l)` for nonempty `l`. -/
def minAddrOf : List Net → Nat
  | [] => 0
  | n :: rest => rest.foldl (fun m x => Nat.min m x.addr) n.addr

/-- `ipaddress.ip_network(f"{min_addr}/{prefix_len}", strict=False)`:
the minimum address masked to the candidate prefix length. -/
def candidateAt (minA L : Nat) : Net := { addr := maskTo minA L, len := L }

/-- `efficiency > best_efficiency` (best efficiency starts at 0), with
the float division modelled by exact cross-multiplication; the state
carries (candidate, used, total). -/
def effGtB (u t : Nat) : Option (Net × Nat × Nat) → Bool
  | none => decide (0 < u)
  | some (_, ub, tb) => decide (ub * t < u * tb)

/-- The `for prefix_len in range(8, 29)` loop of `_find_tightest_summary`
(Step B): skip candidates that fail the containment check or the
strict-reduction check, return at once when the efficiency reaches 5%,
otherwise remember the best (highest-efficiency) candidate and fall back
to it after the scan (its efficiency is necessarily positive). -/
def stepBLoop (sorted : List Net) (minA : Nat) :
    List Nat → Option (Net × Nat × Nat) → Option (String × List String)
  | [], best =>
    match best with
    | some (c, u, _) =>
      if 0 < u then some (netToString c, sorted.map netToString) else none
    | none => none
  | L :: Ls, best =>
    let cand := candidateAt minA L
    if sorted.all (fun n => n.subnet_of cand) then
      let used := (sorted.map (fun n => n.num_addresses)).sum
      let total := cand.num_addresses
      if L < minLen sorted then
        let best' := if effGtB used total best then some (cand, used, total) else best
        if total ≤ 20 * used then some (netToString cand, sorted.map netToString)
        else stepBLoop sorted minA Ls best'
      else stepBLoop sorted minA Ls best
    else stepBLoop sorted minA Ls best

/-- `_find_tightest_summary`: Step A (exact collapse to a single strictly
looser network) else Step B (the bounded-range scan).  The source wraps
the body in `try/except Exception`, but no statement in it can raise for
a group of at least two networks, so the handler is dead and not
modelled; `max_addr` is computed in the source but never used. -/
def _find_tightest_summary (group : List Net) : Option (String × List String) :=
  if group.length < 2 then none
  else
    let sorted := insertionSortBy addrLe group
    let stepA : Option Net :=
      match collapse_addresses sorted with
      | [summary] => if summary.len < minLen sorted then some summary else none
      | _ => none
    match stepA with
    | some summary => some (netToString summary, sorted.map netToString)
    | none => stepBLoop sorted (minAddrOf sorted) (List.range' 8 21) none

/-- Ordered-dict assignment `d[k] = v`: overwrite in place or append. -/
def dictInsert (d : List (String × List String)) (k : String) (v : List String) :
    List (String × List String) :=
  match d with
  | [] => [(k, v)]
  | (k', v') :: rest =>
    if k' = k then (k, v) :: rest else (k', v') :: dictInsert rest k v

/-- Ordered-dict `d.update(e)`. -/
def dictUpdate (d e : List (String × List String)) : List (String × List String) :=
  e.foldl (fun acc p => dictInsert acc p.1 p.2) d

/-- `_find_major_network_summaries`: one optional summary per group. -/
def _find_major_network_summaries (nets : List Net) : List (String × List String) :=
  (_group_by_major_network_class nets).foldl
    (fun summaries g =>
      if g.length < 2 then summaries
      else
        match _find_tightest_summary g with
        | some (s, os) => dictInsert summaries s os
        | none => summaries)
    []

/-- The body of the pairwise double loop of `_find_contiguous_summaries`
for one pair. -/
def pairCheck (i j : Net) (acc : List (String × List String)) :
    List (String × List String) :=
  match collapse_addresses [i, j] with
  | [p] =>
    if p.len < Nat.max i.len j.len then
      if p.len ≤ 28 then
        dictInsert acc (netToString p) [netToString i, netToString j]
      else acc
    else acc
  | _ => acc

/-- Inner loop: all pairs `(i, j)` with `j` after `i`. -/
def pairInner (i : Net) (js : List Net) (acc : List (String × List String)) :
    List (String × List String) :=
  js.foldl (fun a j => pairCheck i j a) acc

/-- Outer loop over the remaining networks. -/
def pairOuter : List Net → List (String × List String) → List (String × List String)
  | [], acc => acc
  | i :: rest, acc => pairOuter rest (pairInner i rest acc)

/-- `_find_contiguous_summaries`: pairwise merge over networks not
already consumed by an existing summary. -/
def _find_contiguous_summaries (networks : List Net)
    (existing : List (String × List String)) : List (String × List String) :=
  let already := existing.foldl (fun acc p => acc ++ p.2) ([] : List String)
  let remaining := networks.filter (fun n => !already.contains (netToString n))
  if remaining.length < 2 then []
  else pairOuter remaining []

/-- `NetworkSummarizer.find_summary_routes`. -/
def find_summary_routes (networks : List String) : List (String × List String) :=
  let objs := networks.filterMap parseNet
  if objs.isEmpty then []
  else
    let sorted := insertionSortBy netLe objs
    let s1 := _find_major_network_summaries sorted
    let s2 := _find_contiguous_summaries sorted s1
    dictUpdate s1 s2

/-- `NetworkSummarizer.get_optimized_networks`: the summary keys in
insertion order followed by the raw input entries whose string is not
among the consumed originals, plus the mapping itself. -/
def get_optimized_networks (networks : List String) :
    List String × List (String × List String) :=
  let summaries := find_summary_routes networks
  let optimized := summaries.map Prod.fst
  let consumed := summaries.foldl (fun acc p => acc ++ p.2) ([] : List String)
  (optimized ++ networks.filter (fun net => !consumed.contains net), summaries)

/-! ## Basic facts about the prefix model -/

theorem subnet_iff {a b : Net} :
    a.subnet_of b = true ↔ b.addr ≤ a.addr ∧ a.broadcast ≤ b.broadcast := by
  simp [Net.subnet_of]

theorem subnet_refl (a : Net) : a.subnet_of a = true := by
  simp [Net.subnet_of]

theorem subnet_trans {a b c : Net} (h1 : a.subnet_of b = true)
    (h2 : b.subnet_of c = true) : a.subnet_of c = true := by
  rw [subnet_iff] at *
  exact ⟨le_trans h2.1 h1.1, le_trans h1.2 h2.2⟩

theorem addr_le_broadcast (n : Net) : n.addr ≤ n.broadcast := by
  have h : 1 ≤ 2 ^ (32 - n.len) := Nat.one_le_two_pow
  unfold Net.broadcast
  omega

theorem subnet_len_le {a b : Net} (ha : a.Valid) (hb : b.Valid)
    (h : a.subnet_of b = true) : b.len ≤ a.len := by
  rw [subnet_iff] at h
  have hbc : a.addr + 2 ^ (32 - a.len) - 1 ≤ b.addr + 2 ^ (32 - b.len) - 1 := h.2
  have h1 : 1 ≤ 2 ^ (32 - a.len) := Nat.one_le_two_pow
  have h2 : 1 ≤ 2 ^ (32 - b.len) := Nat.one_le_two_pow
  have hpow : 2 ^ (32 - a.len) ≤ 2 ^ (32 - b.len) := by
    have hba := h.1
    omega
  have hsub : 32 - a.len ≤ 32 - b.len :=
    (Nat.pow_le_pow_iff_right (by omega)).mp hpow
  have := ha.1
  have := hb.1
  omega

theorem maskTo_le (a l : Nat) : maskTo a l ≤ a := Nat.div_mul_le_self a _

theorem maskTo_dvd (a l : Nat) : 2 ^ (32 - l) ∣ maskTo a l :=
  ⟨a / 2 ^ (32 - l), Nat.mul_comm _ _⟩

theorem supernet_valid {n : Net} (h : n.Valid) : n.supernet.Valid := by
  have hl := h.1
  unfold Net.supernet
  split
  · exact h
  · exact ⟨show n.len - 1 ≤ 32 by omega,
      show maskTo n.addr (n.len - 1) < 2 ^ 32 from
        lt_of_le_of_lt (maskTo_le _ _) h.2.1,
      maskTo_dvd _ _⟩

theorem mod_two_pow_succ_of_dvd {a k : Nat} (h : 2 ^ k ∣ a) :
    a % 2 ^ (k + 1) ≤ 2 ^ k := by
  have hd : 2 ^ k ∣ a % 2 ^ (k + 1) :=
    Nat.dvd_mod_iff (pow_dvd_pow 2 (Nat.le_succ k)) |>.mpr h
  obtain ⟨q, hq⟩ := hd
  have hlt : a % 2 ^ (k + 1) < 2 ^ (k + 1) :=
    Nat.mod_lt _ (Nat.pos_pow_of_pos _ (by omega))
  have hq2 : q < 2 := by
    by_contra hq2
    push_neg at hq2
    have : 2 ^ k * 2 ≤ 2 ^ k * q := Nat.mul_le_mul_left _ hq2
    rw [pow_succ] at hlt
    omega
  calc a % 2 ^ (k + 1) = 2 ^ k * q := hq
    _ ≤ 2 ^ k * 1 := Nat.mul_le_mul_left _ (by omega)
    _ = 2 ^ k := by ring

theorem subnet_supernet {n : Net} (h : n.Valid) :
    n.subnet_of n.supernet = true := by
  unfold Net.supernet
  split
  · exact subnet_refl n
  · rename_i hne
    rw [subnet_iff]
    obtain ⟨hlen, hlt, hdvd⟩ := h
    refine ⟨maskTo_le _ _, ?_⟩
    show n.addr + 2 ^ (32 - n.len) - 1 ≤
      n.addr / 2 ^ (32 - (n.len - 1)) * 2 ^ (32 - (n.len - 1)) +
        2 ^ (32 - (n.len - 1)) - 1
    have hkk : 32 - (n.len - 1) = (32 - n.len) + 1 := by omega
    rw [hkk]
    have hmod : n.addr % 2 ^ ((32 - n.len) + 1) ≤ 2 ^ (32 - n.len) :=
      mod_two_pow_succ_of_dvd hdvd
    have hdm : n.addr / 2 ^ ((32 - n.len) + 1) * 2 ^ ((32 - n.len) + 1) +
        n.addr % 2 ^ ((32 - n.len) + 1) = n.addr := by
      rw [Nat.mul_comm]
      exact Nat.div_add_mod _ _
    have hp : 2 ^ ((32 - n.len) + 1) = 2 * 2 ^ (32 - n.len) := by ring
    have h1 : (1 : Nat) ≤ 2 ^ (32 - n.len) := Nat.one_le_two_pow
    omega

/-! ## Sorting lemmas -/

theorem insertLe_perm (le : Net → Net → Bool) (x : Net) (l : List Net) :
    List.Perm (insertLe le x l) (x :: l) := by
  induction l with
  | nil => exact List.Perm.refl _
  | cons y ys ih =>
    unfold insertLe
    split
    · exact List.Perm.refl _
    · exact List.Perm.trans (List.Perm.cons y ih) (List.Perm.swap x y ys)

theorem insertionSortBy_perm (le : Net → Net → Bool) (l : List Net) :
    List.Perm (insertionSortBy le l) l := by
  induction l with
  | nil => exact List.Perm.refl _
  | cons x xs ih =>
    exact List.Perm.trans (insertLe_perm le x (insertionSortBy le xs))
      (List.Perm.cons x ih)

theorem mem_insertionSortBy {le : Net → Net → Bool} {x : Net} {l : List Net} :
    x ∈ insertionSortBy le l ↔ x ∈ l :=
  (insertionSortBy_perm le l).mem_iff

theorem length_insertionSortBy (le : Net → Net → Bool) (l : List Net) :
    (insertionSortBy le l).length = l.length :=
  (insertionSortBy_perm le l).length_eq

theorem mem_insertLe {le : Net → Net → Bool} {a x : Net} {l : List Net} :
    a ∈ insertLe le x l ↔ a = x ∨ a ∈ l := by
  rw [(insertLe_perm le x l).mem_iff]
  simp

theorem pairwise_insertLe {le : Net → Net → Bool}
    (htot : ∀ a b, le a b = true ∨ le b a = true)
    (htrans : ∀ a b c, le a b = true → le b c = true → le a c = true)
    {x : Net} {l : List Net} (h : l.Pairwise (fun a b => le a b = true)) :
    (insertLe le x l).Pairwise (fun a b => le a b = true) := by
  induction l with
  | nil => simp [insertLe]
  | cons y ys ih =>
    unfold insertLe
    rcases h with _ | ⟨hy, hys⟩
    split
    · rename_i hxy
      refine List.Pairwise.cons ?_ (List.Pairwise.cons hy hys)
      intro z hz
      rcases List.mem_cons.mp hz with rfl | hz
      · exact hxy
      · exact htrans _ _ _ hxy (hy _ hz)
    · rename_i hxy
      have hyx : le y x = true := by
        rcases htot x y with h1 | h1
        · exact absurd h1 hxy
        · exact h1
      refine List.Pairwise.cons ?_ (ih hys)
      intro z hz
      rcases mem_insertLe.mp hz with rfl | hz
      · exact hyx
      · exact hy _ hz

theorem pairwise_insertionSortBy {le : Net → Net → Bool}
    (htot : ∀ a b, le a b = true ∨ le b a = true)
    (htrans : ∀ a b c, le a b = true → le b c = true → le a c = true)
    (l : List Net) :
    (insertionSortBy le l).Pairwise (fun a b => le a b = true) := by
  induction l with
  | nil => simp [insertionSortBy]
  | cons x xs ih => exact pairwise_insertLe htot htrans ih

theorem netLe_total : ∀ a b, netLe a b = true ∨ netLe b a = true := by
  intro a b
  unfold netLe
  rcases Nat.lt_trichotomy a.addr b.addr with h | h | h
  · left; simp [h]
  · rcases Nat.le_total a.len b.len with h2 | h2
    · left; simp [h, h2]
    · right; simp [h.symm, h2]
  · right; simp [h]

theorem netLe_trans : ∀ a b c, netLe a b = true → netLe b c = true →
    netLe a c = true := by
  intro a b c hab hbc
  unfold netLe at *
  simp only [Bool.or_eq_true, Bool.and_eq_true, decide_eq_true_eq] at *
  omega

theorem netLe_addr {a b : Net} (h : netLe a b = true) : a.addr ≤ b.addr := by
  unfold netLe at h
  simp only [Bool.or_eq_true, Bool.and_eq_true, decide_eq_true_eq] at h
  omega

/-! ## Parser facts -/

theorem parseOctet_le {cs : List Char} {v : Nat} (h : parseOctet cs = some v) :
    v ≤ 255 := by
  unfold parseOctet at h
  split at h
  · cases h
  split at h
  · cases h
  split at h
  · cases h
  split at h
  · cases h
  split at h
  · rename_i hle
    cases h
    exact hle
  · cases h

theorem parseIPv4Addr_lt {cs : List Char} {a : Nat}
    (h : parseIPv4Addr cs = some a) : a < 2 ^ 32 := by
  unfold parseIPv4Addr at h
  split at h
  · rename_i p0 p1 p2 p3 heq
    split at h
    · rename_i a0 b0 c0 d0 h0 h1 h2 h3
      have e0 := parseOctet_le h0
      have e1 := parseOctet_le h1
      have e2 := parseOctet_le h2
      have e3 := parseOctet_le h3
      cases h
      have hp : (2 : Nat) ^ 32 = 4294967296 := by norm_num
      omega
    · cases h
  · cases h

theorem parsePrefixLen_le {cs : List Char} {l : Nat}
    (h : parsePrefixLen cs = some l) : l ≤ 32 := by
  unfold parsePrefixLen at h
  split at h
  · cases h
  split at h
  · cases h
  split at h
  · rename_i hle
    cases h
    exact hle
  · cases h

theorem parseNet_valid {s : String} {n : Net} (h : parseNet s = some n) :
    n.Valid := by
  unfold parseNet at h
  split at h
  · rename_i addrPart heq
    cases h0 : parseIPv4Addr addrPart <;> rw [h0] at h
    · cases h
    · rename_i a
      simp only [Option.map_some'] at h
      cases h
      exact ⟨le_refl 32, lt_of_le_of_lt (maskTo_le _ _) (parseIPv4Addr_lt h0),
        maskTo_dvd _ _⟩
  · rename_i addrPart lenPart heq
    split at h
    · rename_i a l h0 h1
      cases h
      exact ⟨parsePrefixLen_le h1, lt_of_le_of_lt (maskTo_le _ _) (parseIPv4Addr_lt h0),
        maskTo_dvd _ _⟩
    · cases h
  · cases h

theorem candidateAt_valid {minA L : Nat} (hA : minA < 2 ^ 32) (hL : L ≤ 32) :
    (candidateAt minA L).Valid :=
  ⟨hL, lt_of_le_of_lt (maskTo_le _ _) hA, maskTo_dvd _ _⟩

/-! ## Minimum folds -/

theorem foldl_min_len_le_init (rest : List Net) (a : Nat) :
    rest.foldl (fun m x => Nat.min m x.len) a ≤ a := by
  induction rest generalizing a with
  | nil => exact le_refl a
  | cons y ys ih => exact le_trans (ih _) (Nat.min_le_left _ _)

theorem foldl_min_len_le_mem {rest : List Net} {x : Net} (hx : x ∈ rest) (a : Nat) :
    rest.foldl (fun m x => Nat.min m x.len) a ≤ x.len := by
  induction rest generalizing a with
  | nil => cases hx
  | cons y ys ih =>
    rcases List.mem_cons.mp hx with rfl | hx
    · exact le_trans (foldl_min_len_le_init ys _) (Nat.min_le_right _ _)
    · exact ih hx _

theorem minLen_le {l : List Net} {x : Net} (hx : x ∈ l) : minLen l ≤ x.len := by
  cases l with
  | nil => cases hx
  | cons n rest =>
    rcases List.mem_cons.mp hx with rfl | hx
    · exact foldl_min_len_le_init rest _
    · exact foldl_min_len_le_mem hx _

theorem foldl_min_addr_le_init (rest : List Net) (a : Nat) :
    rest.foldl (fun m x => Nat.min m x.addr) a ≤ a := by
  induction rest generalizing a with
  | nil => exact le_refl a
  | cons y ys ih => exact le_trans (ih _) (Nat.min_le_left _ _)

theorem minAddrOf_lt {l : List Net} (hl : l ≠ []) (hv : ∀ n ∈ l, n.Valid) :
    minAddrOf l < 2 ^ 32 := by
  cases l with
  | nil => exact absurd rfl hl
  | cons n rest =>
    exact lt_of_le_of_lt (foldl_min_addr_le_init rest _)
      (hv n (List.mem_cons_self n rest)).2.1

/-! ## Collapse loop invariants -/

/-- Invariant of the supernet dictionary: every entry's key is its
value's supernet and every value is well formed. -/
def dictInv (subnets : List (Net × Net)) : Prop :=
  ∀ p ∈ subnets, p.1 = p.2.supernet ∧ p.2.Valid

theorem lookupA_split {l : List (Net × Net)} {q v : Net}
    (h : lookupA l q = some v) :
    ∃ l1 l2, l = l1 ++ (q, v) :: l2 ∧ eraseKeyA l q = l1 ++ l2 := by
  induction l with
  | nil => cases h
  | cons p rest ih =>
    obtain ⟨k, w⟩ := p
    by_cases hk : k = q
    · subst hk
      unfold lookupA at h
      rw [if_pos rfl] at h
      cases h
      refine ⟨[], rest, rfl, ?_⟩
      unfold eraseKeyA
      rw [if_pos rfl]
      exact (List.nil_append _).symm
    · unfold lookupA at h
      rw [if_neg hk] at h
      obtain ⟨l1, l2, he, her⟩ := ih h
      refine ⟨(k, w) :: l1, l2, by rw [he]; rfl, ?_⟩
      unfold eraseKeyA
      rw [if_neg hk, her]
      rfl

theorem supernet_len_eq {n : Net} (h : n.len ≠ 0) : n.supernet.len = n.len - 1 := by
  unfold Net.supernet
  rw [if_neg h]

theorem supernet_of_len_zero {n : Net} (h : n.len = 0) : n.supernet = n := by
  unfold Net.supernet
  rw [if_pos h]

theorem collapseLoop_cons (f : Nat) (net : Net) (rest : List Net)
    (subnets : List (Net × Net)) :
    collapseLoop (f + 1) (net :: rest) subnets =
      match lookupA subnets net.supernet with
      | none => collapseLoop f rest (subnets ++ [(net.supernet, net)])
      | some existing =>
        if existing = net then collapseLoop f rest subnets
        else collapseLoop f (net.supernet :: rest) (eraseKeyA subnets net.supernet) :=
  rfl

/-- The worklist pass preserves the dictionary invariant and, given
enough fuel, every network covered by a worklist or dictionary entry is
covered by an entry of the result. -/
theorem collapseLoop_sound (fuel : Nat) :
    ∀ toMerge subnets,
      (∀ n ∈ toMerge, n.Valid) → dictInv subnets →
      loopMeasure toMerge subnets < fuel →
      dictInv (collapseLoop fuel toMerge subnets) ∧
      (∀ m : Net,
        ((∃ x ∈ toMerge, m.subnet_of x = true) ∨
         (∃ p ∈ subnets, m.subnet_of p.2 = true)) →
        ∃ p ∈ collapseLoop fuel toMerge subnets, m.subnet_of p.2 = true) := by
  induction fuel with
  | zero =>
    intro toMerge subnets hv hinv hm
    cases toMerge with
    | nil =>
      refine ⟨hinv, ?_⟩
      intro m hc
      rcases hc with ⟨x, hx, _⟩ | hc
      · cases hx
      · exact hc
    | cons net rest =>
      exfalso
      unfold loopMeasure at hm
      simp at hm
  | succ f ih =>
    intro toMerge subnets hv hinv hm
    cases toMerge with
    | nil =>
      refine ⟨hinv, ?_⟩
      intro m hc
      rcases hc with ⟨x, hx, _⟩ | hc
      · cases hx
      · exact hc
    | cons net rest =>
      have hvnet : net.Valid := hv net (List.mem_cons_self _ _)
      have hvrest : ∀ n ∈ rest, n.Valid := fun n hn => hv n (List.mem_cons_of_mem _ hn)
      cases hlk : lookupA subnets net.supernet with
      | none =>
        have hstep : collapseLoop (f + 1) (net :: rest) subnets =
            collapseLoop f rest (subnets ++ [(net.supernet, net)]) := by
          rw [collapseLoop_cons, hlk]
        rw [hstep]
        have hinv' : dictInv (subnets ++ [(net.supernet, net)]) := by
          intro p hp
          rcases List.mem_append.mp hp with hp | hp
          · exact hinv p hp
          · rcases List.mem_singleton.mp hp with rfl
            exact ⟨rfl, hvnet⟩
        have hm' : loopMeasure rest (subnets ++ [(net.supernet, net)]) < f := by
          unfold loopMeasure at *
          simp only [List.map_append, List.sum_append, List.map_cons, List.sum_cons] at *
          simp at *
          omega
        obtain ⟨r1, r2⟩ := ih rest _ hvrest hinv' hm'
        refine ⟨r1, ?_⟩
        intro m hc
        apply r2
        rcases hc with ⟨x, hx, hsub⟩ | ⟨p, hp, hsub⟩
        · rcases List.mem_cons.mp hx with rfl | hx
          · right
            exact ⟨(x.supernet, x), by simp, hsub⟩
          · left
            exact ⟨x, hx, hsub⟩
        · right
          exact ⟨p, List.mem_append_left _ hp, hsub⟩
      | some existing =>
        have hmem : (net.supernet, existing) ∈ subnets := by
          obtain ⟨l1, l2, he, _⟩ := lookupA_split hlk
          rw [he]
          simp
        have hex := hinv _ hmem
        have hexsup : net.supernet = existing.supernet := hex.1
        have hexv : existing.Valid := hex.2
        have hstep : collapseLoop (f + 1) (net :: rest) subnets =
            if existing = net then collapseLoop f rest subnets
            else collapseLoop f (net.supernet :: rest)
              (eraseKeyA subnets net.supernet) := by
          rw [collapseLoop_cons, hlk]
        by_cases heq : existing = net
        · rw [hstep, if_pos heq]
          have hm' : loopMeasure rest subnets < f := by
            unfold loopMeasure at *
            simp only [List.map_cons, List.sum_cons] at *
            omega
          obtain ⟨r1, r2⟩ := ih rest _ hvrest hinv hm'
          refine ⟨r1, ?_⟩
          intro m hc
          apply r2
          rcases hc with ⟨x, hx, hsub⟩ | ⟨p, hp, hsub⟩
          · rcases List.mem_cons.mp hx with rfl | hx
            · right
              refine ⟨(x.supernet, existing), hmem, ?_⟩
              rw [heq]
              exact hsub
            · left
              exact ⟨x, hx, hsub⟩
          · right
            exact ⟨p, hp, hsub⟩
        · rw [hstep, if_neg heq]
          obtain ⟨l1, l2, he, her⟩ := lookupA_split hlk
          have hvsup : ∀ n ∈ net.supernet :: rest, n.Valid := by
            intro n hn
            rcases List.mem_cons.mp hn with rfl | hn
            · exact supernet_valid hvnet
            · exact hvrest n hn
          have hinv' : dictInv (eraseKeyA subnets net.supernet) := by
            rw [her]
            intro p hp
            apply hinv
            rw [he]
            rcases List.mem_append.mp hp with hp | hp
            · exact List.mem_append_left _ hp
            · exact List.mem_append_right _ (List.mem_cons_of_mem _ hp)
          have hkey : net.supernet.len + 1 ≤ net.len + existing.len := by
            by_cases hz : net.len = 0
            · have hs := supernet_of_len_zero hz
              have hel : existing.len ≠ 0 := by
                intro he0
                apply heq
                have hse := supernet_of_len_zero he0
                rw [hse] at hexsup
                rw [hs] at hexsup
                exact hexsup.symm
              rw [hs, hz]
              omega
            · rw [supernet_len_eq hz]
              omega
          have hm' : loopMeasure (net.supernet :: rest)
              (eraseKeyA subnets net.supernet) < f := by
            rw [he] at hm
            unfold loopMeasure at *
            rw [her]
            simp only [List.map_append, List.sum_append, List.map_cons,
              List.sum_cons] at *
            omega
          obtain ⟨r1, r2⟩ := ih _ _ hvsup hinv' hm'
          refine ⟨r1, ?_⟩
          intro m hc
          apply r2
          rcases hc with ⟨x, hx, hsub⟩ | ⟨p, hp, hsub⟩
          · rcases List.mem_cons.mp hx with rfl | hx
            · left
              exact ⟨x.supernet, List.mem_cons_self _ _,
                subnet_trans hsub (subnet_supernet hvnet)⟩
            · left
              exact ⟨x, List.mem_cons_of_mem _ hx, hsub⟩
          · rw [he] at hp
            rcases List.mem_append.mp hp with hp | hp
            · right
              refine ⟨p, ?_, hsub⟩
              rw [her]
              exact List.mem_append_left _ hp
            · rcases List.mem_cons.mp hp with rfl | hp
              · left
                refine ⟨net.supernet, List.mem_cons_self _ _, ?_⟩
                have hsup : existing.subnet_of existing.supernet = true :=
                  subnet_supernet hexv
                rw [← hexsup] at hsup
                exact subnet_trans hsub hsup
              · right
                refine ⟨p, ?_, hsub⟩
                rw [her]
                exact List.mem_append_right _ hp

/-! ## Collapse result: coverage and validity -/

theorem dedupe_subset {acc : Option Net} {l : List Net} {x : Net}
    (h : x ∈ dedupeSubsumed acc l) : x ∈ l := by
  induction l generalizing acc with
  | nil => cases acc <;> simp [dedupeSubsumed] at h
  | cons n rest ih =>
    cases acc with
    | none =>
      unfold dedupeSubsumed at h
      rcases List.mem_cons.mp h with rfl | h
      · exact List.mem_cons_self _ _
      · exact List.mem_cons_of_mem _ (ih h)
    | some last =>
      unfold dedupeSubsumed at h
      split at h
      · exact List.mem_cons_of_mem _ (ih h)
      · rcases List.mem_cons.mp h with rfl | h
        · exact List.mem_cons_self _ _
        · exact List.mem_cons_of_mem _ (ih h)

theorem dedupe_cover_some (l : List Net) :
    ∀ last : Net, (last :: l).Pairwise (fun a b => a.addr ≤ b.addr) →
    ∀ x ∈ l, ∃ w, (w = last ∨ w ∈ dedupeSubsumed (some last) l) ∧
      x.subnet_of w = true := by
  induction l with
  | nil =>
    intro last _ x hx
    cases hx
  | cons n rest ih =>
    intro last hp x hx
    have hlast_n : last.addr ≤ n.addr := (List.pairwise_cons.mp hp).1 n (List.mem_cons_self _ _)
    have hlast_rest : ∀ z ∈ rest, last.addr ≤ z.addr := fun z hz =>
      (List.pairwise_cons.mp hp).1 z (List.mem_cons_of_mem _ hz)
    have hp_tail : (n :: rest).Pairwise (fun a b => a.addr ≤ b.addr) :=
      (List.pairwise_cons.mp hp).2
    unfold dedupeSubsumed
    split
    · rename_i hbc
      have hbc' : n.broadcast ≤ last.broadcast := of_decide_eq_true hbc
      have hp_last_rest : (last :: rest).Pairwise (fun a b => a.addr ≤ b.addr) := by
        rw [List.pairwise_cons]
        exact ⟨hlast_rest, (List.pairwise_cons.mp hp_tail).2⟩
      rcases List.mem_cons.mp hx with rfl | hx
      · exact ⟨last, Or.inl rfl, subnet_iff.mpr ⟨hlast_n, hbc'⟩⟩
      · exact ih last hp_last_rest x hx
    · rcases List.mem_cons.mp hx with rfl | hx
      · exact ⟨x, Or.inr (List.mem_cons_self _ _), subnet_refl x⟩
      · obtain ⟨w, hw, hsub⟩ := ih n hp_tail x hx
        rcases hw with rfl | hw
        · exact ⟨w, Or.inr (List.mem_cons_self _ _), hsub⟩
        · exact ⟨w, Or.inr (List.mem_cons_of_mem _ hw), hsub⟩

theorem dedupe_cover {l : List Net}
    (hp : l.Pairwise (fun a b => a.addr ≤ b.addr)) :
    ∀ x ∈ l, ∃ w ∈ dedupeSubsumed none l, x.subnet_of w = true := by
  cases l with
  | nil => intro x hx; cases hx
  | cons n rest =>
    intro x hx
    rcases List.mem_cons.mp hx with rfl | hx
    · exact ⟨x, List.mem_cons_self _ _, subnet_refl x⟩
    · obtain ⟨w, hw, hsub⟩ := dedupe_cover_some rest n hp x hx
      rcases hw with rfl | hw
      · exact ⟨w, List.mem_cons_self _ _, hsub⟩
      · exact ⟨w, List.mem_cons_of_mem _ hw, hsub⟩

theorem collapseLoop_start_sound {nets : List Net} (hv : ∀ n ∈ nets, n.Valid) :
    dictInv (collapseLoop (collapseFuel nets) nets.reverse []) ∧
    (∀ m : Net, (∃ x ∈ nets, m.subnet_of x = true) →
      ∃ p ∈ collapseLoop (collapseFuel nets) nets.reverse [],
        m.subnet_of p.2 = true) := by
  have hv' : ∀ n ∈ nets.reverse, n.Valid := by
    intro n hn
    exact hv n (List.mem_reverse.mp hn)
  have hinv : dictInv ([] : List (Net × Net)) := by
    intro p hp
    cases hp
  have hm : loopMeasure nets.reverse [] < collapseFuel nets := by
    unfold loopMeasure collapseFuel
    simp [List.map_reverse, List.sum_reverse]
  obtain ⟨r1, r2⟩ := collapseLoop_sound (collapseFuel nets) nets.reverse [] hv' hinv hm
  refine ⟨r1, ?_⟩
  intro m hc
  apply r2
  left
  obtain ⟨x, hx, hsub⟩ := hc
  exact ⟨x, List.mem_reverse.mpr hx, hsub⟩

theorem collapse_cover {nets : List Net} (hv : ∀ n ∈ nets, n.Valid) :
    ∀ n ∈ nets, ∃ B ∈ collapse_addresses nets, n.subnet_of B = true := by
  intro n hn
  obtain ⟨r1, r2⟩ := collapseLoop_start_sound hv
  obtain ⟨p, hp, hsub⟩ := r2 n ⟨n, hn, subnet_refl n⟩
  have hval : p.2 ∈ (collapseLoop (collapseFuel nets) nets.reverse []).map
      (fun p => p.2) := List.mem_map_of_mem _ hp
  have hsorted : p.2 ∈ insertionSortBy netLe
      ((collapseLoop (collapseFuel nets) nets.reverse []).map (fun p => p.2)) :=
    mem_insertionSortBy.mpr hval
  have hpw : (insertionSortBy netLe
      ((collapseLoop (collapseFuel nets) nets.reverse []).map (fun p => p.2))).Pairwise
      (fun a b => a.addr ≤ b.addr) :=
    (pairwise_insertionSortBy netLe_total netLe_trans _).imp (fun h => netLe_addr h)
  obtain ⟨w, hw, hsub2⟩ := dedupe_cover hpw p.2 hsorted
  exact ⟨w, hw, subnet_trans hsub hsub2⟩

theorem collapse_valid {nets : List Net} (hv : ∀ n ∈ nets, n.Valid) :
    ∀ B ∈ collapse_addresses nets, B.Valid := by
  intro B hB
  obtain ⟨r1, _⟩ := collapseLoop_start_sound hv
  have hB' : B ∈ insertionSortBy netLe
      ((collapseLoop (collapseFuel nets) nets.reverse []).map (fun p => p.2)) :=
    dedupe_subset hB
  have hB2 : B ∈ (collapseLoop (collapseFuel nets) nets.reverse []).map
      (fun p => p.2) := mem_insertionSortBy.mp hB'
  obtain ⟨p, hp, rfl⟩ := List.mem_map.mp hB2
  exact (r1 p hp).2

/-! ## Tight-summary finder: soundness -/

theorem stepBLoop_sound {sorted : List Net} {minA : Nat}
    (hA : minA < 2 ^ 32) :
    ∀ Ls : List Nat, ∀ best r,
      (∀ L ∈ Ls, L ≤ 32) →
      (∀ c u t, best = some (c, u, t) →
        c.Valid ∧ (∀ n ∈ sorted, n.subnet_of c = true) ∧ c.len < minLen sorted) →
      stepBLoop sorted minA Ls best = some r →
      ∃ B, r = (netToString B, sorted.map netToString) ∧ B.Valid ∧
        (∀ n ∈ sorted, n.subnet_of B = true) ∧ B.len < minLen sorted := by
  intro Ls
  induction Ls with
  | nil =>
    intro best r _ hbest h
    cases best with
    | none =>
      have h' : (none : Option (String × List String)) = some r := h
      cases h'
    | some b =>
      obtain ⟨c, u, t⟩ := b
      have h' : (if 0 < u then
          some (netToString c, sorted.map netToString) else none) = some r := h
      by_cases hu : 0 < u
      · rw [if_pos hu] at h'
        cases h'
        obtain ⟨h1, h2, h3⟩ := hbest c u t rfl
        exact ⟨c, rfl, h1, h2, h3⟩
      · rw [if_neg hu] at h'
        cases h'
  | cons L Ls ih =>
    intro best r hL hbest h
    have hL32 : L ≤ 32 := hL L (List.mem_cons_self _ _)
    have hLs : ∀ M ∈ Ls, M ≤ 32 := fun M hM => hL M (List.mem_cons_of_mem _ hM)
    unfold stepBLoop at h
    simp only at h
    split at h
    · rename_i hall
      split at h
      · rename_i hmin
        split at h
        · cases h
          refine ⟨candidateAt minA L, rfl, candidateAt_valid hA hL32, ?_, hmin⟩
          exact fun n hn => List.all_eq_true.mp hall n hn
        · refine ih _ r hLs ?_ h
          intro c u t hbe
          split at hbe
          · cases hbe
            exact ⟨candidateAt_valid hA hL32,
              fun n hn => List.all_eq_true.mp hall n hn, hmin⟩
          · exact hbest c u t hbe
      · exact ih _ r hLs hbest h
    · exact ih _ r hLs hbest h

theorem fts_sound {group : List Net} {r : String × List String}
    (hv : ∀ n ∈ group, n.Valid)
    (h : _find_tightest_summary group = some r) :
    ∃ B, r = (netToString B, (insertionSortBy addrLe group).map netToString) ∧
      B.Valid ∧
      (∀ n ∈ insertionSortBy addrLe group, n.subnet_of B = true) ∧
      B.len < minLen (insertionSortBy addrLe group) ∧
      insertionSortBy addrLe group ≠ [] := by
  have hvs : ∀ n ∈ insertionSortBy addrLe group, n.Valid := by
    intro n hn
    exact hv n (mem_insertionSortBy.mp hn)
  unfold _find_tightest_summary at h
  split at h
  · cases h
  · rename_i hlen2
    have hne : insertionSortBy addrLe group ≠ [] := by
      intro hnil
      have := length_insertionSortBy addrLe group
      rw [hnil] at this
      simp at this
      omega
    simp only at h
    rcases hc : collapse_addresses (insertionSortBy addrLe group) with _ | ⟨summary, tl⟩
    · rw [hc] at h
      have h' : stepBLoop (insertionSortBy addrLe group)
          (minAddrOf (insertionSortBy addrLe group)) (List.range' 8 21) none =
          some r := h
      obtain ⟨B, h1, h2, h3, h4⟩ := stepBLoop_sound (minAddrOf_lt hne hvs) _ none r
        (by decide) (fun c u t hbe => by cases hbe) h'
      exact ⟨B, h1, h2, h3, h4, hne⟩
    · rw [hc] at h
      cases tl with
      | nil =>
        have h' : (match (if summary.len < minLen (insertionSortBy addrLe group)
              then some summary else none) with
            | some s => some (netToString s,
                (insertionSortBy addrLe group).map netToString)
            | none => stepBLoop (insertionSortBy addrLe group)
                (minAddrOf (insertionSortBy addrLe group)) (List.range' 8 21) none)
            = some r := h
        by_cases hmin : summary.len < minLen (insertionSortBy addrLe group)
        · rw [if_pos hmin] at h'
          have h2 : some ((netToString summary,
              (insertionSortBy addrLe group).map netToString)) = some r := h'
          cases h2
          refine ⟨summary, rfl, ?_, ?_, hmin, hne⟩
          · exact collapse_valid hvs summary (by rw [hc]; exact List.mem_singleton.mpr rfl)
          · intro n hn
            obtain ⟨B, hB, hsub⟩ := collapse_cover hvs n hn
            rw [hc] at hB
            rcases List.mem_singleton.mp hB with rfl
            exact hsub
        · rw [if_neg hmin] at h'
          have h2 : stepBLoop (insertionSortBy addrLe group)
              (minAddrOf (insertionSortBy addrLe group)) (List.range' 8 21) none =
              some r := h'
          obtain ⟨B, h1, hb2, h3, h4⟩ := stepBLoop_sound (minAddrOf_lt hne hvs) _ none r
            (by decide) (fun c u t hbe => by cases hbe) h2
          exact ⟨B, h1, hb2, h3, h4, hne⟩
      | cons s2 tl2 =>
        have h' : stepBLoop (insertionSortBy addrLe group)
            (minAddrOf (insertionSortBy addrLe group)) (List.range' 8 21) none =
            some r := h
        obtain ⟨B, h1, h2, h3, h4⟩ := stepBLoop_sound (minAddrOf_lt hne hvs) _ none r
          (by decide) (fun c u t hbe => by cases hbe) h'
        exact ⟨B, h1, h2, h3, h4, hne⟩

/-! ## Mapping soundness -/

/-- Soundness of one mapping entry with originals drawn from the pool
`R`: the entry is the rendering of a well-formed summary network and a
nonempty list of well-formed member networks of `R`, each contained in
the summary, the summary no longer (in prefix length) than any member
and strictly shorter than at least one. -/
def EntrySound (R : List Net) (e : String × List String) : Prop :=
  ∃ B ms, e = (netToString B, ms.map netToString) ∧ ms ≠ [] ∧ B.Valid ∧
    (∀ m ∈ ms, m.Valid ∧ m ∈ R ∧ m.subnet_of B = true ∧ B.len ≤ m.len) ∧
    (∃ m ∈ ms, B.len < m.len)

theorem dictInsert_mem {d : List (String × List String)} {k : String}
    {v : List String} {e : String × List String} (h : e ∈ dictInsert d k v) :
    e = (k, v) ∨ e ∈ d := by
  induction d with
  | nil =>
    unfold dictInsert at h
    rcases List.mem_singleton.mp h with rfl
    exact Or.inl rfl
  | cons p rest ih =>
    obtain ⟨k', v'⟩ := p
    unfold dictInsert at h
    split at h
    · rcases List.mem_cons.mp h with rfl | h
      · exact Or.inl rfl
      · exact Or.inr (List.mem_cons_of_mem _ h)
    · rcases List.mem_cons.mp h with rfl | h
      · exact Or.inr (List.mem_cons_self _ _)
      · rcases ih h with h | h
        · exact Or.inl h
        · exact Or.inr (List.mem_cons_of_mem _ h)

theorem dictUpdate_mem {l : List (String × List String)} :
    ∀ {d e}, e ∈ dictUpdate d l → e ∈ d ∨ e ∈ l := by
  induction l with
  | nil => intro d e h; exact Or.inl h
  | cons p rest ih =>
    intro d e h
    unfold dictUpdate at *
    rcases ih h with h | h
    · rcases dictInsert_mem h with rfl | h
      · right
        rw [show (p.1, p.2) = p from rfl]
        exact List.mem_cons_self _ _
      · exact Or.inl h
    · exact Or.inr (List.mem_cons_of_mem _ h)

theorem addToGroups_mem {gs : List (String × List Net)} {k : String} {n : Net}
    {p : String × List Net} (hp : p ∈ addToGroups gs k n) :
    ∀ x ∈ p.2, (∃ q ∈ gs, x ∈ q.2) ∨ x = n := by
  induction gs with
  | nil =>
    unfold addToGroups at hp
    rcases List.mem_singleton.mp hp with rfl
    intro x hx
    rcases List.mem_singleton.mp hx with rfl
    exact Or.inr rfl
  | cons q rest ih =>
    obtain ⟨k', l⟩ := q
    unfold addToGroups at hp
    split at hp
    · rcases List.mem_cons.mp hp with rfl | hp
      · intro x hx
        rcases List.mem_append.mp hx with hx | hx
        · exact Or.inl ⟨(k', l), List.mem_cons_self _ _, hx⟩
        · rcases List.mem_singleton.mp hx with rfl
          exact Or.inr rfl
      · intro x hx
        exact Or.inl ⟨p, List.mem_cons_of_mem _ hp, hx⟩
    · rcases List.mem_cons.mp hp with rfl | hp
      · intro x hx
        exact Or.inl ⟨(k', l), List.mem_cons_self _ _, hx⟩
      · intro x hx
        rcases ih hp x hx with ⟨q, hq, hxq⟩ | hx
        · exact Or.inl ⟨q, List.mem_cons_of_mem _ hq, hxq⟩
        · exact Or.inr hx

theorem groupsOf_fold_mem :
    ∀ (l : List Net) (gs : List (String × List Net)) p,
      p ∈ l.foldl (fun gs n => addToGroups gs (classKey n) n) gs →
      ∀ x ∈ p.2, (∃ q ∈ gs, x ∈ q.2) ∨ x ∈ l := by
  intro l
  induction l with
  | nil =>
    intro gs p hp x hx
    exact Or.inl ⟨p, hp, hx⟩
  | cons n rest ih =>
    intro gs p hp x hx
    rcases ih _ p hp x hx with hq | hx'
    · obtain ⟨q, hq, hxq⟩ := hq
      rcases addToGroups_mem hq x hxq with hq' | rfl
      · exact Or.inl hq'
      · exact Or.inr (List.mem_cons_self _ _)
    · exact Or.inr (List.mem_cons_of_mem _ hx')

theorem group_members_mem {nets : List Net} {g : List Net}
    (hg : g ∈ _group_by_major_network_class nets) : ∀ x ∈ g, x ∈ nets := by
  unfold _group_by_major_network_class at hg
  obtain ⟨p, hp, hpg⟩ := List.mem_filterMap.mp hg
  split at hpg
  · cases hpg
    intro x hx
    rcases groupsOf_fold_mem nets [] p hp x hx with ⟨q, hq, _⟩ | hx'
    · cases hq
    · exact hx'
  · cases hpg

theorem fts_entry_sound {R g : List Net} {s : String} {os : List String}
    (hgR : ∀ x ∈ g, x ∈ R) (hv : ∀ n ∈ R, n.Valid)
    (h : _find_tightest_summary g = some (s, os)) : EntrySound R (s, os) := by
  have hvg : ∀ n ∈ g, n.Valid := fun n hn => hv n (hgR n hn)
  obtain ⟨B, heq, hBv, hsub, hlt, hne⟩ := fts_sound hvg h
  cases heq
  refine ⟨B, insertionSortBy addrLe g, rfl, hne, hBv, ?_, ?_⟩
  · intro m hm
    have hmg : m ∈ g := mem_insertionSortBy.mp hm
    exact ⟨hvg m hmg, hgR m hmg, hsub m hm,
      le_of_lt (lt_of_lt_of_le hlt (minLen_le hm))⟩
  · obtain ⟨m, hm⟩ := List.exists_mem_of_ne_nil _ hne
    exact ⟨m, hm, lt_of_lt_of_le hlt (minLen_le hm)⟩

theorem major_fold_sound {R : List Net} (hv : ∀ n ∈ R, n.Valid) :
    ∀ (gs : List (List Net)) (acc : List (String × List String)),
      (∀ g ∈ gs, ∀ x ∈ g, x ∈ R) →
      (∀ e ∈ acc, EntrySound R e) →
      ∀ e ∈ gs.foldl
        (fun summaries g =>
          if g.length < 2 then summaries
          else
            match _find_tightest_summary g with
            | some (s, os) => dictInsert summaries s os
            | none => summaries)
        acc, EntrySound R e := by
  intro gs
  induction gs with
  | nil => intro acc _ hacc e he; exact hacc e he
  | cons g rest ih =>
    intro acc hgs hacc e he
    simp only [List.foldl_cons] at he
    refine ih _ (fun g' hg' x hx => hgs g' (List.mem_cons_of_mem _ hg') x hx) ?_ e he
    intro e' he'
    split at he'
    · exact hacc e' he'
    · rcases hf : _find_tightest_summary g with _ | ⟨s, os⟩
      · rw [hf] at he'
        exact hacc e' he'
      · rw [hf] at he'
        rcases dictInsert_mem he' with rfl | he'
        · exact fts_entry_sound (hgs g (List.mem_cons_self _ _)) hv hf
        · exact hacc e' he'

theorem major_sound {nets : List Net} (hv : ∀ n ∈ nets, n.Valid) :
    ∀ e ∈ _find_major_network_summaries nets, EntrySound nets e := by
  intro e he
  unfold _find_major_network_summaries at he
  refine major_fold_sound hv _ [] ?_ ?_ e he
  · intro g hg x hx
    exact group_members_mem hg x hx
  · intro e' he'
    cases he'

theorem pair_entry_sound {R : List Net} {i j S : Net}
    (hv : ∀ n ∈ R, n.Valid) (hi : i ∈ R) (hj : j ∈ R)
    (hc : collapse_addresses [i, j] = [S])
    (hlt : S.len < Nat.max i.len j.len) :
    EntrySound R (netToString S, [netToString i, netToString j]) := by
  have hvi : i.Valid := hv i hi
  have hvj : j.Valid := hv j hj
  have hvp : ∀ n ∈ [i, j], n.Valid := by
    intro n hn
    rcases List.mem_cons.mp hn with rfl | hn
    · exact hvi
    · rcases List.mem_singleton.mp hn with rfl
      exact hvj
  have hSv : S.Valid := collapse_valid hvp S (by rw [hc]; exact List.mem_singleton.mpr rfl)
  have hsubi : i.subnet_of S = true := by
    obtain ⟨B, hB, hsub⟩ := collapse_cover hvp i (List.mem_cons_self _ _)
    rw [hc] at hB
    rcases List.mem_singleton.mp hB with rfl
    exact hsub
  have hsubj : j.subnet_of S = true := by
    obtain ⟨B, hB, hsub⟩ := collapse_cover hvp j
      (List.mem_cons_of_mem _ (List.mem_singleton.mpr rfl))
    rw [hc] at hB
    rcases List.mem_singleton.mp hB with rfl
    exact hsub
  refine ⟨S, [i, j], rfl, by simp, hSv, ?_, ?_⟩
  · intro m hm
    rcases List.mem_cons.mp hm with rfl | hm
    · exact ⟨hvi, hi, hsubi, subnet_len_le hvi hSv hsubi⟩
    · rcases List.mem_singleton.mp hm with rfl
      exact ⟨hvj, hj, hsubj, subnet_len_le hvj hSv hsubj⟩
  · rcases lt_max_iff.mp hlt with h | h
    · exact ⟨i, List.mem_cons_self _ _, h⟩
    · exact ⟨j, List.mem_cons_of_mem _ (List.mem_singleton.mpr rfl), h⟩

theorem pairCheck_pres {P : String × List String → Prop} {i j : Net}
    {acc : List (String × List String)}
    (hacc : ∀ e ∈ acc, P e)
    (hP : ∀ S, collapse_addresses [i, j] = [S] → S.len < Nat.max i.len j.len →
      S.len ≤ 28 → P (netToString S, [netToString i, netToString j])) :
    ∀ e ∈ pairCheck i j acc, P e := by
  intro e he
  unfold pairCheck at he
  split at he
  · rename_i S heq
    split at he
    · split at he
      · rcases dictInsert_mem he with rfl | he
        · rename_i hlt h28
          exact hP S heq hlt h28
        · exact hacc e he
      · exact hacc e he
    · exact hacc e he
  · exact hacc e he

theorem pairInner_pres {P : String × List String → Prop} {i : Net} :
    ∀ (js : List Net) (acc : List (String × List String)),
      (∀ e ∈ acc, P e) →
      (∀ j ∈ js, ∀ S, collapse_addresses [i, j] = [S] →
        S.len < Nat.max i.len j.len → S.len ≤ 28 →
        P (netToString S, [netToString i, netToString j])) →
      ∀ e ∈ pairInner i js acc, P e := by
  intro js
  induction js with
  | nil => intro acc hacc _ e he; exact hacc e he
  | cons j rest ih =>
    intro acc hacc hP e he
    unfold pairInner at *
    simp only [List.foldl_cons] at he
    refine ih _ ?_ (fun j' hj' => hP j' (List.mem_cons_of_mem _ hj')) e he
    exact pairCheck_pres hacc (hP j (List.mem_cons_self _ _))

theorem pairOuter_pres {P : String × List String → Prop} :
    ∀ (l : List Net) (acc : List (String × List String)),
      (∀ e ∈ acc, P e) →
      (∀ i ∈ l, ∀ j ∈ l, ∀ S, collapse_addresses [i, j] = [S] →
        S.len < Nat.max i.len j.len → S.len ≤ 28 →
        P (netToString S, [netToString i, netToString j])) →
      ∀ e ∈ pairOuter l acc, P e := by
  intro l
  induction l with
  | nil => intro acc hacc _ e he; exact hacc e he
  | cons i rest ih =>
    intro acc hacc hP e he
    unfold pairOuter at he
    refine ih _ ?_ (fun i' hi' j' hj' =>
      hP i' (List.mem_cons_of_mem _ hi') j' (List.mem_cons_of_mem _ hj')) e he
    exact pairInner_pres rest acc hacc
      (fun j hj => hP i (List.mem_cons_self _ _) j (List.mem_cons_of_mem _ hj))

theorem contiguous_sound {networks : List Net}
    {existing : List (String × List String)}
    (hv : ∀ n ∈ networks, n.Valid) :
    ∀ e ∈ _find_contiguous_summaries networks existing,
      EntrySound networks e := by
  intro e he
  unfold _find_contiguous_summaries at he
  simp only at he
  split at he
  · cases he
  · refine pairOuter_pres _ [] (fun e' he' => by cases he') ?_ e he
    intro i hi j hj S hc hlt _
    have hi' : i ∈ networks := (List.mem_filter.mp hi).1
    have hj' : j ∈ networks := (List.mem_filter.mp hj).1
    exact pair_entry_sound hv hi' hj' hc hlt

/-- Soundness of one mapping entry of the whole engine: originals are
the renderings of networks parsed from the input strings. -/
def EntrySoundS (ns : List String) (e : String × List String) : Prop :=
  ∃ B ms, e = (netToString B, ms.map netToString) ∧ ms ≠ [] ∧ B.Valid ∧
    (∀ m ∈ ms, m.Valid ∧ (∃ s ∈ ns, parseNet s = some m) ∧
      m.subnet_of B = true ∧ B.len ≤ m.len) ∧
    (∃ m ∈ ms, B.len < m.len)

theorem fsr_sound {networks : List String} :
    ∀ e ∈ find_summary_routes networks, EntrySoundS networks e := by
  intro e he
  unfold find_summary_routes at he
  simp only at he
  split at he
  · cases he
  · have hvo : ∀ n ∈ insertionSortBy netLe (networks.filterMap parseNet), n.Valid := by
      intro n hn
      obtain ⟨s, _, hs⟩ := List.mem_filterMap.mp (mem_insertionSortBy.mp hn)
      exact parseNet_valid hs
    have hsound : EntrySound (insertionSortBy netLe (networks.filterMap parseNet)) e := by
      rcases dictUpdate_mem he with h1 | h2
      · exact major_sound hvo e h1
      · exact contiguous_sound hvo e h2
    obtain ⟨B, ms, heq, hne, hBv, hm, hstrict⟩ := hsound
    refine ⟨B, ms, heq, hne, hBv, ?_, hstrict⟩
    intro m hmem
    obtain ⟨h1, h2, h3, h4⟩ := hm m hmem
    obtain ⟨s, hs, hps⟩ := List.mem_filterMap.mp (mem_insertionSortBy.mp h2)
    exact ⟨h1, ⟨s, hs, hps⟩, h3, h4⟩

theorem gon_mapping_eq (networks : List String) :
    (get_optimized_networks networks).2 = find_summary_routes networks := rfl

theorem gon_mapping_sound {networks : List String} :
    ∀ e ∈ (get_optimized_networks networks).2, EntrySoundS networks e := by
  intro e he
  rw [gon_mapping_eq] at he
  exact fsr_sound e he

/-! ## Claim theorems -/

set_option maxRecDepth 8000

/-- The prefix-length reading of the strict-reduction claim on one
rendered mapping entry: the summary string parses back to a network
strictly shorter in prefix length than every original. -/
def strictReductionB (e : String × List String) : Bool :=
  match parseNet e.1 with
  | some B => e.2.all (fun o =>
      match parseNet o with
      | some m => decide (B.len < m.len)
      | none => false)
  | none => false

/-- C1 counterexample: on input ["10.0.0.0/8", "10.1.0.0/16"], the
Contiguous-Pair Merger accepts the pair (its summary "10.0.0.0/8" is
strictly looser than the tighter input, which is all the source checks),
yet the summary's prefix length equals the minimum original prefix
length, so the strict-reduction claim is false. -/
theorem C1_counterexample :
    ¬ (∀ e ∈ (get_optimized_networks ["10.0.0.0/8", "10.1.0.0/16"]).2,
        strictReductionB e = true) := by decide

/-- C1 (amended): every entry of the returned SummaryMapping renders a
summary network whose prefix length is at most every original's prefix
length and strictly less than at least one original's (so strictly less
than the maximum, though not always the minimum). -/
theorem C1_reduction_bound {networks : List String} {e : String × List String}
    (he : e ∈ (get_optimized_networks networks).2) :
    ∃ (B : Net) (ms : List Net), e = (netToString B, ms.map netToString) ∧
      (∀ m ∈ ms, B.len ≤ m.len) ∧ ∃ m ∈ ms, B.len < m.len := by
  obtain ⟨B, ms, heq, _, _, hm, hs⟩ := gon_mapping_sound e he
  exact ⟨B, ms, heq, fun m hm' => (hm m hm').2.2.2, hs⟩

/-- Witness for C1 at the Scenario A input. -/
theorem C1_reduction_bound_witness :
    ∃ (B : Net) (ms : List Net), (("10.0.0.0/23", ["10.0.0.0/24", "10.0.1.0/24"]) :
        String × List String) = (netToString B, ms.map netToString) ∧
      (∀ m ∈ ms, B.len ≤ m.len) ∧ ∃ m ∈ ms, B.len < m.len :=
  @C1_reduction_bound ["10.0.0.0/24", "10.0.1.0/24"]
    ("10.0.0.0/23", ["10.0.0.0/24", "10.0.1.0/24"]) (by decide)

/-- C2 counterexample: the malformed entry is not dropped from the
OptimizedNetworkList; the returned list is not ["10.0.0.0/23"]. -/
theorem C2_counterexample :
    ¬ ((get_optimized_networks ["10.0.0.0/24", "not-a-network", "10.0.1.0/24"]).1 =
        ["10.0.0.0/23"]) := by decide

/-- C2 (amended): on ["10.0.0.0/24", "not-a-network", "10.0.1.0/24"] the
malformed entry is dropped before parsing and has no effect on the
summarization (the mapping is exactly the Scenario A mapping), but the
final list assembly walks the raw input strings and re-emits the
malformed entry as an unconsumed leftover after the summary. -/
theorem C2_scenario_c :
    get_optimized_networks ["10.0.0.0/24", "not-a-network", "10.0.1.0/24"] =
      (["10.0.0.0/23", "not-a-network"],
       [("10.0.0.0/23", ["10.0.0.0/24", "10.0.1.0/24"])]) := by decide

/-- C3 counterexample: with the non-canonical input "10.0.0.5/24"
(host bits set), the mapping's originals are the canonical renderings of
the parsed networks, and "10.0.0.0/24" is not a member of the input
list, so the string-level no-fabrication claim is false. -/
theorem C3_counterexample :
    ¬ (∀ e ∈ (get_optimized_networks ["10.0.0.5/24", "10.0.1.0/24"]).2,
        ∀ o ∈ e.2, o ∈ ["10.0.0.5/24", "10.0.1.0/24"]) := by decide

/-- C3 (amended): every original appearing in the returned SummaryMapping
is the canonical rendering of a network parsed from some input string,
so no address space outside the input is invented, although the string
itself may differ from the input spelling by host-bit masking. -/
theorem C3_no_fabrication {networks : List String} {e : String × List String}
    (he : e ∈ (get_optimized_networks networks).2) {o : String} (ho : o ∈ e.2) :
    ∃ s ∈ networks, ∃ m, parseNet s = some m ∧ o = netToString m := by
  obtain ⟨B, ms, heq, _, _, hm, _⟩ := gon_mapping_sound e he
  cases heq
  obtain ⟨m, hm', rfl⟩ := List.mem_map.mp ho
  obtain ⟨_, ⟨s, hs, hps⟩, _, _⟩ := hm m hm'
  exact ⟨s, hs, m, hps, rfl⟩

/-- Witness for C3 at the Scenario A input. -/
theorem C3_no_fabrication_witness :
    ∃ s ∈ (["10.0.0.0/24", "10.0.1.0/24"] : List String), ∃ m,
      parseNet s = some m ∧ ("10.0.0.0/24" : String) = netToString m :=
  @C3_no_fabrication ["10.0.0.0/24", "10.0.1.0/24"]
    ("10.0.0.0/23", ["10.0.0.0/24", "10.0.1.0/24"]) (by decide)
    "10.0.0.0/24" (by decide)

/-- C4: evaluation at the failing input ["10.0.0.5/24", "10.0.1.5/24"]
(valid but non-canonical CIDR text): both entries are summarized under
their canonical names, yet the leftover pass compares the raw input
strings against the canonical consumed strings and re-emits both, so
the output list has 3 entries for a 2-entry input. -/
theorem C4_expansion_failing_input :
    get_optimized_networks ["10.0.0.5/24", "10.0.1.5/24"] =
      (["10.0.0.0/23", "10.0.0.5/24", "10.0.1.5/24"],
       [("10.0.0.0/23", ["10.0.0.0/24", "10.0.1.0/24"])]) ∧
    2 < (get_optimized_networks ["10.0.0.5/24", "10.0.1.5/24"]).1.length := by
  decide

/-- C5: Containment invariant: every entry of the returned
SummaryMapping renders a summary network and original networks such that
every original is fully contained (as an address range) within the
summary. -/
theorem C5_containment_invariant {networks : List String}
    {e : String × List String} (he : e ∈ (get_optimized_networks networks).2) :
    ∃ (B : Net) (ms : List Net), e.1 = netToString B ∧ e.2 = ms.map netToString ∧
      ∀ m ∈ ms, m.subnet_of B = true := by
  obtain ⟨B, ms, heq, _, _, hm, _⟩ := gon_mapping_sound e he
  cases heq
  exact ⟨B, ms, rfl, rfl, fun m hm' => (hm m hm').2.2.1⟩

/-- Witness for C5 at the Scenario A input. -/
theorem C5_containment_invariant_witness :
    ∃ (B : Net) (ms : List Net), (("10.0.0.0/23", ["10.0.0.0/24", "10.0.1.0/24"]) :
        String × List String).1 = netToString B ∧
      (("10.0.0.0/23", ["10.0.0.0/24", "10.0.1.0/24"]) :
        String × List String).2 = ms.map netToString ∧
      ∀ m ∈ ms, m.subnet_of B = true :=
  @C5_containment_invariant ["10.0.0.0/24", "10.0.1.0/24"]
    ("10.0.0.0/23", ["10.0.0.0/24", "10.0.1.0/24"]) (by decide)

/-- C6: the engine never fails for empty or single-element input: it
returns the input unchanged with an empty SummaryMapping, whatever the
single entry is, and in particular for ["172.16.5.0/24"]. -/
theorem C6_degenerate_inputs :
    get_optimized_networks [] = ([], []) ∧
    (∀ s : String, get_optimized_networks [s] = ([s], [])) ∧
    get_optimized_networks ["172.16.5.0/24"] = (["172.16.5.0/24"], []) := by
  refine ⟨by decide, ?_, by decide⟩
  intro s
  have hfsr : find_summary_routes [s] = [] := by
    unfold find_summary_routes
    cases hp : parseNet s with
    | none => simp [List.filterMap_cons, hp]
    | some n =>
      simp only [List.filterMap_cons, hp, List.filterMap_nil]
      simp [insertionSortBy, insertLe, _find_major_network_summaries,
        _group_by_major_network_class, groupsOf, addToGroups,
        _find_contiguous_summaries, dictUpdate]
  unfold get_optimized_networks
  rw [hfsr]
  simp [List.filter]

/-- C8: Step A of the Tight-Summary Finder: whenever the exact collapse
of a group (of at least two members, sorted by network address) yields a
single network strictly shorter in prefix length than the minimum member
prefix length, that network is returned at once as the group's summary
with the whole sorted group as originals; and on the Scenario A input
the engine returns (["10.0.0.0/23"], {"10.0.0.0/23": ["10.0.0.0/24",
"10.0.1.0/24"]}). -/
theorem C8_step_a {group : List Net} {B : Net}
    (h2 : ¬ group.length < 2)
    (hc : collapse_addresses (insertionSortBy addrLe group) = [B])
    (hlt : B.len < minLen (insertionSortBy addrLe group)) :
    _find_tightest_summary group =
      some (netToString B, (insertionSortBy addrLe group).map netToString) ∧
    get_optimized_networks ["10.0.0.0/24", "10.0.1.0/24"] =
      (["10.0.0.0/23"], [("10.0.0.0/23", ["10.0.0.0/24", "10.0.1.0/24"])]) := by
  constructor
  · unfold _find_tightest_summary
    rw [if_neg h2]
    simp only
    rw [hc]
    have hred : (match (if B.len < minLen (insertionSortBy addrLe group)
          then some B else none) with
        | some s => some (netToString s,
            (insertionSortBy addrLe group).map netToString)
        | none => stepBLoop (insertionSortBy addrLe group)
            (minAddrOf (insertionSortBy addrLe group)) (List.range' 8 21) none) =
        some (netToString B, (insertionSortBy addrLe group).map netToString) := by
      rw [if_pos hlt]
    exact hred
  · decide

/-- Witness for C8 at the Scenario A group. -/
theorem C8_step_a_witness :
    _find_tightest_summary [⟨167772160, 24⟩, ⟨167772416, 24⟩] =
      some ("10.0.0.0/23", ["10.0.0.0/24", "10.0.1.0/24"]) ∧
    get_optimized_networks ["10.0.0.0/24", "10.0.1.0/24"] =
      (["10.0.0.0/23"], [("10.0.0.0/23", ["10.0.0.0/24", "10.0.1.0/24"])]) :=
  @C8_step_a [⟨167772160, 24⟩, ⟨167772416, 24⟩] ⟨167772160, 23⟩
    (by decide) (by decide) (by decide)

/-! ## Classifier lemmas -/

theorem str_append_empty (s : String) : s ++ "" = s := by
  cases s
  show String.mk _ = String.mk _
  simp [String.append]

theorem toString_string (s : String) : toString s = s := rfl

theorem addToGroups_key_const {gs : List (String × List Net)} {k : String}
    {n : Net} (hk : classKey n = k)
    (h : ∀ p ∈ gs, ∀ x ∈ p.2, classKey x = p.1) :
    ∀ p ∈ addToGroups gs k n, ∀ x ∈ p.2, classKey x = p.1 := by
  induction gs with
  | nil =>
    intro p hp x hx
    unfold addToGroups at hp
    rcases List.mem_singleton.mp hp with rfl
    rcases List.mem_singleton.mp hx with rfl
    exact hk
  | cons q rest ih =>
    obtain ⟨k', l⟩ := q
    intro p hp x hx
    unfold addToGroups at hp
    split at hp
    · rename_i hkk
      rcases List.mem_cons.mp hp with rfl | hp
      · rcases List.mem_append.mp hx with hx | hx
        · exact h (k', l) (List.mem_cons_self _ _) x hx
        · rcases List.mem_singleton.mp hx with rfl
          rw [hk, hkk]
      · exact h p (List.mem_cons_of_mem _ hp) x hx
    · rcases List.mem_cons.mp hp with rfl | hp
      · exact h (k', l) (List.mem_cons_self _ _) x hx
      · exact ih (fun q hq => h q (List.mem_cons_of_mem _ hq)) p hp x hx

theorem groupsOf_key_const :
    ∀ (l : List Net) (gs : List (String × List Net)),
      (∀ p ∈ gs, ∀ x ∈ p.2, classKey x = p.1) →
      ∀ p ∈ l.foldl (fun gs n => addToGroups gs (classKey n) n) gs,
        ∀ x ∈ p.2, classKey x = p.1 := by
  intro l
  induction l with
  | nil => intro gs h p hp; exact h p hp
  | cons n rest ih =>
    intro gs h p hp
    exact ih _ (addToGroups_key_const rfl h) p hp

theorem addToGroups_flatten_perm (gs : List (String × List Net)) (k : String)
    (n : Net) :
    List.Perm (((addToGroups gs k n).map Prod.snd).flatten)
      ((gs.map Prod.snd).flatten ++ [n]) := by
  induction gs with
  | nil => simp [addToGroups]
  | cons q rest ih =>
    obtain ⟨k', l⟩ := q
    unfold addToGroups
    split
    · simp only [List.map_cons, List.flatten_cons]
      rw [List.append_assoc, List.append_assoc]
      exact List.Perm.append_left l List.perm_append_comm
    · simp only [List.map_cons, List.flatten_cons]
      rw [List.append_assoc]
      exact List.Perm.append_left l ih

theorem groupsOf_fold_flatten_perm :
    ∀ (l : List Net) (gs : List (String × List Net)),
      List.Perm
        (((l.foldl (fun gs n => addToGroups gs (classKey n) n) gs).map
          Prod.snd).flatten)
        ((gs.map Prod.snd).flatten ++ l) := by
  intro l
  induction l with
  | nil => intro gs; simp
  | cons n rest ih =>
    intro gs
    simp only [List.foldl_cons]
    refine List.Perm.trans (ih _) ?_
    have h1 := List.Perm.append_right rest (addToGroups_flatten_perm gs (classKey n) n)
    refine List.Perm.trans h1 ?_
    rw [List.append_assoc]
    exact List.Perm.refl _

theorem count_le_flatten {g : List Net} :
    ∀ {L : List (List Net)}, g ∈ L → ∀ n : Net,
      g.count n ≤ L.flatten.count n := by
  intro L
  induction L with
  | nil => intro hg; cases hg
  | cons h t ih =>
    intro hg n
    rcases List.mem_cons.mp hg with rfl | hg
    · rw [List.flatten_cons, List.count_append]
      exact Nat.le_add_right _ _
    · rw [List.flatten_cons, List.count_append]
      exact Nat.le_add_left _ _ |>.trans' (ih hg n)

/-- C9: the classification key of every network is "10" for first octet
10, "172.<second octet>" for first octet 172 with second octet in
[16, 31], "192.168" for first octets 192.168, and "<first>.<second>"
otherwise; every group forwarded by the classifier has at least two
members, all drawn from the input; and a network occurring once whose
key no other network shares belongs to no forwarded group (it stays an
unsummarized leftover at this stage). -/
theorem C9_classifier :
    (∀ n : Net,
      (addrByte0 n = 10 → classKey n = "10") ∧
      (addrByte0 n = 172 → 16 ≤ addrByte1 n → addrByte1 n ≤ 31 →
        classKey n = "172." ++ toString (addrByte1 n)) ∧
      (addrByte0 n = 192 → addrByte1 n = 168 → classKey n = "192.168") ∧
      (addrByte0 n ≠ 10 →
        ¬(addrByte0 n = 172 ∧ 16 ≤ addrByte1 n ∧ addrByte1 n ≤ 31) →
        ¬(addrByte0 n = 192 ∧ addrByte1 n = 168) →
        classKey n = toString (addrByte0 n) ++ "." ++ toString (addrByte1 n))) ∧
    (∀ nets : List Net, ∀ g ∈ _group_by_major_network_class nets,
      1 < g.length ∧ ∀ x ∈ g, x ∈ nets) ∧
    (∀ (nets : List Net) (n : Net),
      nets.count n = 1 →
      (∀ m ∈ nets, classKey m = classKey n → m = n) →
      ∀ g ∈ _group_by_major_network_class nets, n ∉ g) := by
  refine ⟨?_, ?_, ?_⟩
  · intro n
    refine ⟨?_, ?_, ?_, ?_⟩
    · intro h0
      simp [classKey, h0]
    · intro h0 h1 h2
      simp [classKey, h0, h1, h2, toString_string, str_append_empty]
    · intro h0 h1
      simp [classKey, h0, h1]
    · intro h0 h1 h2
      simp only [classKey]
      rw [if_neg h0, if_neg, if_neg]
      · simp [toString_string, str_append_empty]
      · simp only [Bool.and_eq_true, decide_eq_true_eq]
        intro hc
        exact h2 ⟨hc.1, hc.2⟩
      · simp only [Bool.and_eq_true, decide_eq_true_eq]
        intro hc
        exact h1 ⟨hc.1.1, hc.1.2, hc.2⟩
  · intro nets g hg
    refine ⟨?_, group_members_mem hg⟩
    unfold _group_by_major_network_class at hg
    obtain ⟨p, hp, hpg⟩ := List.mem_filterMap.mp hg
    split at hpg
    · cases hpg
      assumption
    · cases hpg
  · intro nets n hcount huniq g hg hn
    unfold _group_by_major_network_class at hg
    obtain ⟨p, hp, hpg⟩ := List.mem_filterMap.mp hg
    split at hpg
    · rename_i hlen
      cases hpg
      have hkey : ∀ x ∈ p.2, classKey x = p.1 :=
        groupsOf_key_const nets [] (fun q hq => by cases hq) p hp
      have hkn : classKey n = p.1 := hkey n hn
      have hall : ∀ x ∈ p.2, x = n := by
        intro x hx
        refine huniq x ?_ (by rw [hkey x hx, ← hkn])
        rcases groupsOf_fold_mem nets [] p hp x hx with ⟨q, hq, _⟩ | hx'
        · cases hq
        · exact hx'
      have h1 : p.2.count n = p.2.length :=
        List.count_eq_length.mpr (fun b hb => (hall b hb).symm)
      have h2 : p.2.count n ≤ (((groupsOf nets).map Prod.snd).flatten).count n :=
        count_le_flatten (List.mem_map_of_mem _ hp) n
      have h3 : (((groupsOf nets).map Prod.snd).flatten).count n = nets.count n := by
        have hperm := groupsOf_fold_flatten_perm nets []
        simp only [List.map_nil, List.flatten_nil, List.nil_append] at hperm
        exact hperm.count_eq n
      omega
    · cases hpg

/-- Witness for C9: the first key equation at 10.0.0.0/24, and the
singleton-leftover fact on a two-element list with distinct keys. -/
theorem C9_classifier_witness :
    classKey ⟨167772160, 24⟩ = "10" ∧
    (∀ g ∈ _group_by_major_network_class [⟨167772160, 24⟩, ⟨3232235776, 24⟩],
      (⟨3232235776, 24⟩ : Net) ∉ g) := by
  constructor
  · exact (C9_classifier.1 ⟨167772160, 24⟩).1 (by decide)
  · exact C9_classifier.2.2 [⟨167772160, 24⟩, ⟨3232235776, 24⟩] ⟨3232235776, 24⟩
      (by decide) (by decide)

/-! ## Step B against the specification's description -/

/-- Sum of the members' address counts ("used addresses"). -/
def specUsed (sorted : List Net) : Nat :=
  (sorted.map (fun n => n.num_addresses)).sum

/-- Modelled from the spec (section 4.3 Step B, items 2 and 3): a
candidate prefix length is valid when the candidate block (the minimum
member address masked to that length) contains every member and is
strictly shorter than the minimum member prefix length. -/
def specValidCand (sorted : List Net) (minA : Nat) (L : Nat) : Bool :=
  sorted.all (fun n => n.subnet_of (candidateAt minA L)) &&
    decide (L < minLen sorted)

/-- Modelled from the spec (section 4.3 Step B, item 4): efficiency as
the exact rational (sum of member address counts) / (candidate address
count). -/
def specEff (sorted : List Net) (minA : Nat) (L : Nat) : ℚ :=
  (specUsed sorted : ℚ) / ((candidateAt minA L).num_addresses : ℚ)

/-- Modelled from the spec (section 4.3 Step B, item 5): remember the
highest-efficiency valid candidate seen so far (strictly better
replaces). -/
def specBestStep (sorted : List Net) (minA : Nat) (acc : Option Nat)
    (L : Nat) : Option Nat :=
  match acc with
  | none => some L
  | some M =>
    if specEff sorted minA M < specEff sorted minA L then some L else acc

/-- Modelled from the spec (section 4.3 Step B): scan the candidate
prefix lengths 8..28 in ascending order, keep the valid ones, return at
the first whose efficiency reaches 5%, otherwise return the
highest-efficiency valid candidate if any exists, and nothing if no
candidate was ever valid. -/
def stepB_spec (sorted : List Net) (minA : Nat) : Option (String × List String) :=
  let valids := (List.range' 8 21).filter (specValidCand sorted minA)
  match valids.find? (fun L => decide ((1 : ℚ) / 20 ≤ specEff sorted minA L)) with
  | some L => some (netToString (candidateAt minA L), sorted.map netToString)
  | none =>
    match valids.foldl (specBestStep sorted minA) none with
    | some M => some (netToString (candidateAt minA M), sorted.map netToString)
    | none => none

theorem num_addresses_pos (n : Net) : 0 < n.num_addresses :=
  Nat.pos_pow_of_pos _ (by omega)

theorem specUsed_pos {sorted : List Net} (hne : sorted ≠ []) :
    0 < specUsed sorted := by
  cases sorted with
  | nil => exact absurd rfl hne
  | cons n rest =>
    unfold specUsed
    simp only [List.map_cons, List.sum_cons]
    have := num_addresses_pos n
    omega

theorem thresh_iff {U T : Nat} (hT : 0 < T) :
    ((1 : ℚ) / 20 ≤ (U : ℚ) / (T : ℚ)) ↔ T ≤ 20 * U := by
  rw [div_le_div_iff₀ (by norm_num) (by exact_mod_cast hT), one_mul]
  rw [show ((U : ℚ) * 20) = ((20 * U : Nat) : ℚ) by push_cast; ring]
  exact Nat.cast_le

theorem effLt_iff {U TM TL : Nat} (hM : 0 < TM) (hL : 0 < TL) :
    ((U : ℚ) / (TM : ℚ) < (U : ℚ) / (TL : ℚ)) ↔ U * TL < U * TM := by
  rw [div_lt_div_iff₀ (by exact_mod_cast hM) (by exact_mod_cast hL)]
  rw [show ((U : ℚ) * (TL : ℚ)) = ((U * TL : Nat) : ℚ) by push_cast; ring,
    show ((U : ℚ) * (TM : ℚ)) = ((U * TM : Nat) : ℚ) by push_cast; ring]
  exact Nat.cast_lt

theorem stepBLoop_spec_eq {sorted : List Net} {minA : Nat} (hne : sorted ≠ []) :
    ∀ (Ls : List Nat) (acc : Option Nat),
      stepBLoop sorted minA Ls
        (acc.map (fun M => (candidateAt minA M, specUsed sorted,
          (candidateAt minA M).num_addresses))) =
      (match (Ls.filter (specValidCand sorted minA)).find?
          (fun L => decide ((1 : ℚ) / 20 ≤ specEff sorted minA L)) with
       | some L => some (netToString (candidateAt minA L), sorted.map netToString)
       | none =>
         match (Ls.filter (specValidCand sorted minA)).foldl
             (specBestStep sorted minA) acc with
         | some M => some (netToString (candidateAt minA M), sorted.map netToString)
         | none => none) := by
  intro Ls
  induction Ls with
  | nil =>
    intro acc
    cases acc with
    | none => rfl
    | some M =>
      have hstep : stepBLoop sorted minA []
          (some (candidateAt minA M, specUsed sorted,
            (candidateAt minA M).num_addresses)) =
          (if 0 < specUsed sorted then
            some (netToString (candidateAt minA M), sorted.map netToString)
          else none) := rfl
      rw [Option.map_some', hstep, if_pos (specUsed_pos hne)]
      rfl
  | cons L Ls ih =>
    intro acc
    have hstep : stepBLoop sorted minA (L :: Ls)
        (acc.map (fun M => (candidateAt minA M, specUsed sorted,
          (candidateAt minA M).num_addresses))) =
        (if sorted.all (fun n => n.subnet_of (candidateAt minA L)) then
          (if L < minLen sorted then
            (if (candidateAt minA L).num_addresses ≤ 20 * specUsed sorted then
              some (netToString (candidateAt minA L), sorted.map netToString)
            else
              stepBLoop sorted minA Ls
                (if effGtB (specUsed sorted) ((candidateAt minA L).num_addresses)
                    (acc.map (fun M => (candidateAt minA M, specUsed sorted,
                      (candidateAt minA M).num_addresses)))
                 then some (candidateAt minA L, specUsed sorted,
                    (candidateAt minA L).num_addresses)
                 else acc.map (fun M => (candidateAt minA M, specUsed sorted,
                    (candidateAt minA M).num_addresses))))
          else stepBLoop sorted minA Ls
            (acc.map (fun M => (candidateAt minA M, specUsed sorted,
              (candidateAt minA M).num_addresses))))
        else stepBLoop sorted minA Ls
          (acc.map (fun M => (candidateAt minA M, specUsed sorted,
            (candidateAt minA M).num_addresses)))) := rfl
    rw [hstep]
    by_cases hall : sorted.all (fun n => n.subnet_of (candidateAt minA L)) = true
    · rw [if_pos hall]
      by_cases hmin : L < minLen sorted
      · rw [if_pos hmin]
        have hvalid : specValidCand sorted minA L = true := by
          unfold specValidCand
          rw [hall, decide_eq_true hmin]
          rfl
        rw [List.filter_cons_of_pos hvalid]
        by_cases hth : (candidateAt minA L).num_addresses ≤ 20 * specUsed sorted
        · rw [if_pos hth]
          have hfind : (fun L => decide ((1 : ℚ) / 20 ≤ specEff sorted minA L)) L
              = true := by
            rw [decide_eq_true_eq]
            exact (thresh_iff (num_addresses_pos (candidateAt minA L))).mpr hth
          rw [@List.find?_cons_of_pos Nat
            (fun L => decide ((1 : ℚ) / 20 ≤ specEff sorted minA L)) L
            (List.filter (specValidCand sorted minA) Ls) hfind]
        · rw [if_neg hth]
          have hfind : ¬ ((fun L => decide ((1 : ℚ) / 20 ≤ specEff sorted minA L)) L
              = true) := by
            rw [decide_eq_true_eq]
            intro hcon
            exact hth ((thresh_iff (num_addresses_pos (candidateAt minA L))).mp hcon)
          rw [@List.find?_cons_of_neg Nat
            (fun L => decide ((1 : ℚ) / 20 ≤ specEff sorted minA L)) L
            (List.filter (specValidCand sorted minA) Ls) hfind, List.foldl_cons]
          have hbest : (if effGtB (specUsed sorted)
                ((candidateAt minA L).num_addresses)
                (acc.map (fun M => (candidateAt minA M, specUsed sorted,
                  (candidateAt minA M).num_addresses)))
              then some (candidateAt minA L, specUsed sorted,
                (candidateAt minA L).num_addresses)
              else acc.map (fun M => (candidateAt minA M, specUsed sorted,
                (candidateAt minA M).num_addresses))) =
              (specBestStep sorted minA acc L).map
                (fun M => (candidateAt minA M, specUsed sorted,
                  (candidateAt minA M).num_addresses)) := by
            cases acc with
            | none =>
              have he : effGtB (specUsed sorted)
                  ((candidateAt minA L).num_addresses)
                  ((none : Option Nat).map (fun M => (candidateAt minA M,
                    specUsed sorted, (candidateAt minA M).num_addresses))) =
                  true := by
                show decide (0 < specUsed sorted) = true
                exact decide_eq_true (specUsed_pos hne)
              rw [if_pos he]
              rfl
            | some M =>
              by_cases hcmp : specUsed sorted * (candidateAt minA L).num_addresses <
                  specUsed sorted * (candidateAt minA M).num_addresses
              · have he : effGtB (specUsed sorted)
                    ((candidateAt minA L).num_addresses)
                    ((some M).map (fun M => (candidateAt minA M, specUsed sorted,
                      (candidateAt minA M).num_addresses))) = true := by
                  show decide (specUsed sorted * (candidateAt minA L).num_addresses <
                    specUsed sorted * (candidateAt minA M).num_addresses) = true
                  exact decide_eq_true hcmp
                rw [if_pos he]
                have hlt : specEff sorted minA M < specEff sorted minA L :=
                  (effLt_iff (num_addresses_pos (candidateAt minA M))
                    (num_addresses_pos (candidateAt minA L))).mpr hcmp
                have hs : specBestStep sorted minA (some M) L = some L := by
                  show (if specEff sorted minA M < specEff sorted minA L
                    then some L else some M) = some L
                  rw [if_pos hlt]
                rw [hs]
                rfl
              · have he : effGtB (specUsed sorted)
                    ((candidateAt minA L).num_addresses)
                    ((some M).map (fun M => (candidateAt minA M, specUsed sorted,
                      (candidateAt minA M).num_addresses))) = false := by
                  show decide (specUsed sorted * (candidateAt minA L).num_addresses <
                    specUsed sorted * (candidateAt minA M).num_addresses) = false
                  exact decide_eq_false hcmp
                rw [he]
                have hnlt : ¬ (specEff sorted minA M < specEff sorted minA L) :=
                  fun hcon => hcmp ((effLt_iff (num_addresses_pos (candidateAt minA M))
                    (num_addresses_pos (candidateAt minA L))).mp hcon)
                have hs : specBestStep sorted minA (some M) L = some M := by
                  show (if specEff sorted minA M < specEff sorted minA L
                    then some L else some M) = some M
                  rw [if_neg hnlt]
                rw [hs]
                simp
          rw [hbest]
          exact ih (specBestStep sorted minA acc L)
      · rw [if_neg hmin]
        have hvalid : specValidCand sorted minA L = false := by
          unfold specValidCand
          rw [hall, decide_eq_false hmin]
          rfl
        rw [List.filter_cons_of_neg (by simp [hvalid])]
        exact ih acc
    · rw [if_neg hall]
      have hvalid : specValidCand sorted minA L = false := by
        unfold specValidCand
        rw [Bool.not_eq_true] at hall
        rw [hall]
        rfl
      rw [List.filter_cons_of_neg (by simp [hvalid])]
      exact ih acc

/-- C7: the Step B scan of `_find_tightest_summary` iterates the
candidate prefix lengths 8 through 28 in ascending order and behaves
exactly as the specification describes: candidates are the group's
minimum address masked to each length, candidates failing containment
or the strict-reduction check are rejected, the first candidate whose
efficiency reaches 5% is returned at once, otherwise the
highest-efficiency valid candidate seen is returned after the scan, and
no summary is produced when no candidate was ever valid. -/
theorem C7_step_b_search {sorted : List Net} (hne : sorted ≠ []) (minA : Nat) :
    List.range' 8 21 =
      [8, 9, 10, 11, 12, 13, 14, 15, 16, 17, 18, 19, 20, 21, 22, 23, 24,
       25, 26, 27, 28] ∧
    stepBLoop sorted minA (List.range' 8 21) none = stepB_spec sorted minA := by
  refine ⟨by decide, ?_⟩
  have h := @stepBLoop_spec_eq sorted minA hne (List.range' 8 21) none
  simpa [stepB_spec] using h

/-- Witness for C7 at a one-member list. -/
theorem C7_step_b_search_witness :
    List.range' 8 21 =
      [8, 9, 10, 11, 12, 13, 14, 15, 16, 17, 18, 19, 20, 21, 22, 23, 24,
       25, 26, 27, 28] ∧
    stepBLoop [⟨167772160, 24⟩] 167772160 (List.range' 8 21) none =
      stepB_spec [⟨167772160, 24⟩] 167772160 :=
  @C7_step_b_search [⟨167772160, 24⟩] (by simp) 167772160
